import Mathlib

/-!
A verification development for the chat-log summarizer (`chat_summarizer.py`).

The Python program is shallowly embedded over `List Char` (standing for
Python `str`, one `Char` per code point) and `List (List Char)` (lists of
strings).  All embedded functions are executable, so concrete runs can be
settled with `decide` / `rfl`.

Unicode caveat: `Char.toLower`, `Char.isAlpha`, and the whitespace / word
classes below implement the ASCII fragment of the corresponding Python
notions.  Every input considered by the theorems and counterexamples in this
file is ASCII, where the embedding agrees with Python exactly.
-/

namespace ChatSummarizer

/-- Abbreviation turning a Lean string literal into the `List Char`
representation used throughout the embedding. -/
def str (s : String) : List Char := s.toList

/-- The ASCII whitespace class of Python `str.strip()`: space, tab, newline,
carriage return, vertical tab, form feed. -/
def isPySpace (c : Char) : Bool :=
  c = ' ' || c = '\t' || c = '\n' || c = '\r' || c = Char.ofNat 11 || c = Char.ofNat 12

/-- Leading-whitespace removal, the left half of Python `str.strip()`. -/
def trimLeft (l : List Char) : List Char := l.dropWhile isPySpace

/-- Trailing-whitespace removal, the right half of Python `str.strip()`. -/
def trimRight (l : List Char) : List Char := ((l.reverse).dropWhile isPySpace).reverse

/-- Python `str.strip()`: remove leading and trailing whitespace. -/
def trim (l : List Char) : List Char := trimRight (trimLeft l)

/-- Python `sep.join(xs)`: concatenate `xs` with `sep` between consecutive
elements. -/
def joinWith (sep : List Char) : List (List Char) → List Char
  | [] => []
  | [m] => m
  | m :: ms => m ++ sep ++ joinWith sep ms

/-! ### The transcript parser (`parse_chat_log`, lines 11–60)

`process_line` is the body of the `for line in file` loop (lines 19–43),
`finalize` is the end-of-input flush (lines 48–51), and `parse_lines` runs
the whole scan.  `parse_chat_log` adds the `try/except` wrapper: the read
result is passed as an `Except` value, and the returned pair is
(printed error messages, (user_messages, ai_messages)). -/

inductive Speaker where
  | user
  | ai
deriving DecidableEq

structure ParseState where
  current_speaker : Option Speaker
  current_message : List Char
  user_messages : List (List Char)
  ai_messages : List (List Char)
deriving DecidableEq

def userTag : List Char := str ("User:")

def aiTag : List Char := str ("AI:")

/-- One iteration of the parsing loop (lines 19–43): strip the line, on a
speaker tag finalize an opposite-speaker pending message and reseed the
accumulator, otherwise treat the line as a continuation of the current
message (or drop it when no speaker is established). -/
def process_line (st : ParseState) (raw : List Char) : ParseState :=
  let line := trim raw
  if userTag.isPrefixOf line then
    let st1 :=
      if st.current_speaker = some Speaker.ai ∧ st.current_message ≠ [] then
        { st with ai_messages := st.ai_messages ++ [trim st.current_message] }
      else st
    { st1 with current_speaker := some Speaker.user, current_message := trim (line.drop 5) }
  else if aiTag.isPrefixOf line then
    let st1 :=
      if st.current_speaker = some Speaker.user ∧ st.current_message ≠ [] then
        { st with user_messages := st.user_messages ++ [trim st.current_message] }
      else st
    { st1 with current_speaker := some Speaker.ai, current_message := trim (line.drop 3) }
  else if st.current_speaker.isSome then
    { st with current_message := st.current_message ++ ' ' :: line }
  else st

/-- The end-of-input flush (lines 48–51). -/
def finalize (st : ParseState) : List (List Char) × List (List Char) :=
  if st.current_speaker = some Speaker.user ∧ st.current_message ≠ [] then
    (st.user_messages ++ [trim st.current_message], st.ai_messages)
  else if st.current_speaker = some Speaker.ai ∧ st.current_message ≠ [] then
    (st.user_messages, st.ai_messages ++ [trim st.current_message])
  else (st.user_messages, st.ai_messages)

def initState : ParseState := ⟨none, [], [], []⟩

/-- The full scan over the input lines, returning
`(user_messages, ai_messages)`. -/
def parse_lines (lines : List (List Char)) : List (List Char) × List (List Char) :=
  finalize (lines.foldl process_line initState)

/-- A read attempt of the input file: either its lines, or a failure. -/
inductive ReadOutcome where
  | fileNotFound
  | ioError (msg : List Char)
deriving DecidableEq

/-- Python `parse_chat_log` (lines 11–60) with the `try/except` handlers (lines
53–58) made explicit: the first component collects the printed error
messages, the second is the returned `(user_messages, ai_messages)` pair.
Both handlers return normally, so no exception escapes — in the embedding,
the function is total. -/
def parse_chat_log (file_path : List Char) :
    Except ReadOutcome (List (List Char)) → List (List Char) × (List (List Char) × List (List Char))
  | Except.ok lines => ([], parse_lines lines)
  | Except.error ReadOutcome.fileNotFound =>
      ([str ("Error: File ") ++ [Char.ofNat 39] ++ file_path ++ [Char.ofNat 39] ++ str (" not found.")],
        ([], []))
  | Except.error (ReadOutcome.ioError msg) =>
      ([str ("Error reading file: ") ++ msg], ([], []))

example :
    parse_lines [str ("User: first line"), str ("second line"), str ("AI: reply")] =
      ([str ("first line second line")], [str ("reply")]) := by
  decide

/-! ### Keyword extraction (`extract_keywords`, lines 62–107)

The tokenization step is `re.findall(r'\b[a-zA-Z]{3,}\b', all_text.lower())`.
`re_scan` embeds the regex engine: positions are tried left to right; a match
attempt at a position requires a word boundary (`prevWord = false`) before an
ASCII letter, greedily takes the maximal letter run, and succeeds only when
the run has length at least 3 and is followed by a word boundary (end of
input or a non-word character).  A shorter match of `[a-zA-Z]{3,}` is never
possible on backtracking, because a proper non-empty prefix of a letter run
ends between two letters, which is not a boundary; and after a success or a
failure the engine moves on, with positions inside a word run rejected by
the leading `\b`.  Scanning therefore advances one character at a time,
carrying whether the previous character was a word character. -/

/-- The `\w` class of Python `re` restricted to ASCII: letters, digits,
underscore. -/
def isWordChar (c : Char) : Bool := c.isAlpha || c.isDigit || c = '_'

/-- Whether the next character (if any) is a word boundary for the end of a
match: end of input or a non-word character. -/
def headNonWord : List Char → Bool
  | [] => true
  | d :: _ => !isWordChar d

/-- The scan of `re.findall(r'\b[a-zA-Z]{3,}\b', s)` over `s`;
`prevWord` records whether the character before the current position is a
word character (`false` at the start of the string). -/
def re_scan (prevWord : Bool) : List Char → List (List Char)
  | [] => []
  | c :: cs =>
    if !prevWord && c.isAlpha then
      if decide (3 ≤ (c :: cs.takeWhile Char.isAlpha).length) && headNonWord (cs.dropWhile Char.isAlpha) then
        (c :: cs.takeWhile Char.isAlpha) :: re_scan true cs
      else re_scan true cs
    else re_scan (isWordChar c) cs

/-- Python `re.findall(r'\b[a-zA-Z]{3,}\b', s)` (line 98). -/
def re_findall (s : List Char) : List (List Char) := re_scan false s

/-- The maximal runs of word characters of a string, in order.  This is the
declarative notion the corrected claim C2 compares the scanner against. -/
def wordRuns : List Char → List (List Char)
  | [] => []
  | c :: cs =>
    if isWordChar c then (c :: cs.takeWhile isWordChar) :: wordRuns (cs.dropWhile isWordChar)
    else wordRuns cs
termination_by l => l.length
decreasing_by
  · simp only [List.length_cons]
    exact Nat.lt_succ_of_le ((List.dropWhile_sublist isWordChar).length_le)
  · simp

/-- The stop-word set (lines 77–92), verbatim. -/
def stop_words : List (List Char) :=
  ([ "i", "me", "my", "myself", "we", "our", "ours", "ourselves", "you",
    "your", "yours", "yourself", "yourselves", "he", "him", "his", "himself",
    "she", "her", "hers", "herself", "it", "its", "itself", "they", "them",
    "their", "theirs", "themselves", "what", "which", "who", "whom", "this",
    "that", "these", "those", "am", "is", "are", "was", "were", "be", "been",
    "being", "have", "has", "had", "having", "do", "does", "did", "doing",
    "a", "an", "the", "and", "but", "if", "or", "because", "as", "until",
    "while", "of", "at", "by", "for", "with", "about", "against", "between",
    "into", "through", "during", "before", "after", "above", "below", "to",
    "from", "up", "down", "in", "out", "on", "off", "over", "under", "again",
    "further", "then", "once", "here", "there", "when", "where", "why", "how",
    "all", "any", "both", "each", "few", "more", "most", "other", "some",
    "such", "no", "nor", "not", "only", "own", "same", "so", "than", "too",
    "very", "s", "t", "can", "will", "just", "don", "should", "now" ]).map String.toList

/-- Python `all_text = ' '.join(messages)` (line 95). -/
def all_text (messages : List (List Char)) : List Char := joinWith [ ' ' ] messages

/-- Python `words = re.findall(r'\b[a-zA-Z]{3,}\b', all_text.lower())` (line 98). -/
def words (messages : List (List Char)) : List (List Char) :=
  re_findall ((all_text messages).map Char.toLower)

/-- Python `filtered_words = [word for word in words if word not in stop_words]`
(line 101). -/
def filtered_words (messages : List (List Char)) : List (List Char) :=
  (words messages).filter (fun w => decide (w ∉ stop_words))

/-- The keys of `Counter(ws)` in insertion order: Python dicts iterate in
insertion order, so the keys appear in order of first occurrence in `ws`. -/
def counterKeys (ws : List (List Char)) : List (List Char) :=
  ws.foldl (fun acc w => if w ∈ acc then acc else acc ++ [w]) []

/-- The number of occurrences of `w` in `ws`. -/
def countOcc (w : List Char) : List (List Char) → Nat
  | [] => 0
  | x :: xs => (if x = w then 1 else 0) + countOcc w xs

/-- Python `Counter(filtered_words)` (line 104) as its `items()` list: each distinct
word, in first-occurrence order, with its count. -/
def counter (ws : List (List Char)) : List (List Char × Nat) :=
  (counterKeys ws).map (fun w => (w, countOcc w ws))

/-- Insert `x` after every element whose count is at least `x`'s count:
the insertion step of a stable descending sort by count. -/
def insertDesc (x : List Char × Nat) : List (List Char × Nat) → List (List Char × Nat)
  | [] => [x]
  | y :: ys => if x.2 ≤ y.2 then y :: insertDesc x ys else x :: y :: ys

/-- Stable sort by descending count, processing elements left to right. -/
def sortDesc (l : List (List Char × Nat)) : List (List Char × Nat) :=
  l.foldl (fun acc x => insertDesc x acc) []

/-- Python `Counter.most_common(n)` (line 107): `heapq.nlargest(n, items, key=count)`,
which CPython documents and implements as the first `n` elements of the
stable descending sort of `items` by count (ties keep the order of `items`,
i.e. first-occurrence order); `n ≤ 0` yields `[]`. -/
def most_common (c : List (List Char × Nat)) (n : Int) : List (List Char × Nat) :=
  (sortDesc c).take n.toNat

/-- Python `extract_keywords(messages, top_n)` (lines 62–107). -/
def extract_keywords (messages : List (List Char)) (top_n : Int) : List (List Char × Nat) :=
  most_common (counter (filtered_words messages)) top_n

/-- Index of the first occurrence of `w` in `ws` (length of `ws` when
absent). -/
def firstIdx (w : List Char) : List (List Char) → Nat
  | [] => 0
  | x :: xs => if x = w then 0 else firstIdx w xs + 1

example : words [str ("Hello, hello world!")] = [str ("hello"), str ("hello"), str ("world")] := by
  decide

example :
    extract_keywords [str ("Hello, hello world!")] 5 =
      [(str ("hello"), 2), (str ("world"), 1)] := by decide

example : extract_keywords [str ("the and of")] 5 = [] := by decide

example : words [str ("ab_cde f-ghi")] = [str ("ghi")] := by decide

/-! ### Nature classifier and summary generator (lines 109–176) -/

/-- Python `determine_conversation_nature(keywords)` (lines 109–128). -/
def determine_conversation_nature (keywords : List (List Char × Nat)) : List Char :=
  if keywords = [] then str ("Unable to determine the nature of the conversation.")
  else
    str ("The conversation was mainly about ") ++
      joinWith (str (", ")) (keywords.map (fun p => p.1)) ++ str (".")

/-- The exchange count of `generate_summary` (lines 143–148):
`exchanges = min(len(user_messages), len(ai_messages))`, incremented when
there are more user messages than AI messages. -/
def exchanges_count (nUser nAi : Nat) : Nat :=
  if nAi < nUser then min nUser nAi + 1 else min nUser nAi

/-- Decimal rendering of a count, as interpolated by the f-strings. -/
def natStr (n : Nat) : List Char := (Nat.repr n).toList

/-- Python `generate_summary(user_messages, ai_messages)` (lines 130–176). -/
def generate_summary (user_messages ai_messages : List (List Char)) : List Char :=
  let total_messages := user_messages.length + ai_messages.length
  let exchanges := exchanges_count user_messages.length ai_messages.length
  let top_keywords := extract_keywords (user_messages ++ ai_messages) 5
  let conversation_nature := determine_conversation_nature top_keywords
  let keyword_str := joinWith (str (", ")) (top_keywords.map (fun p => p.1))
  str ("=== Chat Summary ===\n") ++
  str ("Total messages: ") ++ natStr total_messages ++ str ("\n") ++
  str ("User messages: ") ++ natStr user_messages.length ++ str ("\n") ++
  str ("AI messages: ") ++ natStr ai_messages.length ++ str ("\n") ++
  str ("Total exchanges: ") ++ natStr exchanges ++ str ("\n") ++
  (if top_keywords ≠ [] then str ("\nMost common keywords: ") ++ keyword_str ++ str ("\n")
   else []) ++
  str ("\nSummary:\n") ++
  str ("- The conversation had ") ++ natStr exchanges ++ str (" exchanges.\n") ++
  str ("- ") ++ conversation_nature ++ str ("\n") ++
  str ("- Most common keywords: ") ++ keyword_str ++ str (".\n")

/-! ### Statement-side definitions

These do not come from the source: they are the vocabulary in which the
claims are stated and settled — an instrumented copy of the parser that
remembers, for every message, the stripped line fragments it was assembled
from; and the ordering relation of the keyword ranking. -/

/-- Instrumented parser state: like `ParseState`, but the accumulator is
kept as the list of its stripped line fragments (the seed after the speaker
tag, then each continuation line), and finished messages keep their fragment
lists. -/
structure GhostState where
  speaker : Option Speaker
  current_parts : List (List Char)
  user_parts : List (List (List Char))
  ai_parts : List (List (List Char))

/-- Instrumented copy of `process_line`: identical scan, but remembering
fragments instead of concatenating them. -/
def ghost_line (g : GhostState) (raw : List Char) : GhostState :=
  let line := trim raw
  if userTag.isPrefixOf line then
    let g1 :=
      if g.speaker = some Speaker.ai ∧ joinWith [ ' ' ] g.current_parts ≠ [] then
        { g with ai_parts := g.ai_parts ++ [g.current_parts] }
      else g
    { g1 with speaker := some Speaker.user, current_parts := [trim (line.drop 5)] }
  else if aiTag.isPrefixOf line then
    let g1 :=
      if g.speaker = some Speaker.user ∧ joinWith [ ' ' ] g.current_parts ≠ [] then
        { g with user_parts := g.user_parts ++ [g.current_parts] }
      else g
    { g1 with speaker := some Speaker.ai, current_parts := [trim (line.drop 3)] }
  else if g.speaker.isSome then
    { g with current_parts := g.current_parts ++ [line] }
  else g

/-- Instrumented copy of `finalize`. -/
def ghost_finalize (g : GhostState) : List (List (List Char)) × List (List (List Char)) :=
  if g.speaker = some Speaker.user ∧ joinWith [ ' ' ] g.current_parts ≠ [] then
    (g.user_parts ++ [g.current_parts], g.ai_parts)
  else if g.speaker = some Speaker.ai ∧ joinWith [ ' ' ] g.current_parts ≠ [] then
    (g.user_parts, g.ai_parts ++ [g.current_parts])
  else (g.user_parts, g.ai_parts)

/-- The instrumented scan: the fragment lists of the user and AI messages. -/
def ghost_parse (lines : List (List Char)) :
    List (List (List Char)) × List (List (List Char)) :=
  ghost_finalize (lines.foldl ghost_line ⟨none, [], [], []⟩)

/-- Rebuild a message from its fragments: join with single spaces, then
strip. -/
def mkMsg (parts : List (List Char)) : List Char := trim (joinWith [ ' ' ] parts)

/-- The relation between `ParseState` and its instrumented copy maintained
throughout the scan. -/
def GhostMatch (st : ParseState) (g : GhostState) : Prop :=
  st.current_speaker = g.speaker ∧
  st.current_message = joinWith [ ' ' ] g.current_parts ∧
  (g.speaker.isSome → g.current_parts ≠ []) ∧
  st.user_messages = g.user_parts.map mkMsg ∧
  st.ai_messages = g.ai_parts.map mkMsg ∧
  (∀ parts ∈ g.user_parts, ∀ s ∈ parts, trim s = s) ∧
  (∀ parts ∈ g.ai_parts, ∀ s ∈ parts, trim s = s) ∧
  (∀ s ∈ g.current_parts, trim s = s)

/-- The ranking order of the keyword list: strictly larger count first, and
on equal counts the word whose first occurrence (per `g`) is earlier. -/
def ROrd (g : List Char × Nat → Nat) (a b : List Char × Nat) : Prop :=
  b.2 < a.2 ∨ (a.2 = b.2 ∧ g a < g b)

/-! ## Theorems

### Basic lemmas about `trim` -/

theorem dropWhile_eq_self_of_head (p : Char → Bool) :
    ∀ l : List Char, (∀ c ∈ l.head?, p c = false) → l.dropWhile p = l := by
  intro l h
  cases l with
  | nil => rfl
  | cons c cs =>
    have hc : p c = false := h c rfl
    simp [List.dropWhile, hc]

theorem head_dropWhile_false (p : Char → Bool) :
    ∀ l : List Char, ∀ c ∈ (l.dropWhile p).head?, p c = false := by
  intro l
  induction l with
  | nil => intro c hc; simp at hc
  | cons a as ih =>
    intro c hc
    by_cases hp : p a
    · rw [List.dropWhile_cons_of_pos hp] at hc
      exact ih c hc
    · rw [List.dropWhile_cons_of_neg hp] at hc
      simp at hc
      subst hc
      simpa using hp

theorem dropWhile_idem (p : Char → Bool) (l : List Char) :
    (l.dropWhile p).dropWhile p = l.dropWhile p :=
  dropWhile_eq_self_of_head p _ (head_dropWhile_false p l)

theorem trimLeft_trim (l : List Char) : trimLeft (trim l) = trim l := by
  unfold trim trimRight trimLeft
  set x := l.dropWhile isPySpace with hx
  have hdecomp : x = (x.reverse.dropWhile isPySpace).reverse ++ (x.reverse.takeWhile isPySpace).reverse := by
    conv_lhs => rw [← List.reverse_reverse x,
      ← List.takeWhile_append_dropWhile (p := isPySpace) (l := x.reverse)]
    rw [List.reverse_append]
  apply dropWhile_eq_self_of_head
  intro c hc
  have hhead : ∀ d ∈ x.head?, isPySpace d = false := by
    intro d hd
    have := head_dropWhile_false isPySpace l
    rw [← hx] at this
    exact this d hd
  cases hhd : (x.reverse.dropWhile isPySpace).reverse with
  | nil => rw [hhd] at hc; simp at hc
  | cons a t =>
    rw [hhd] at hc
    simp at hc
    subst hc
    have : x.head? = some a := by
      rw [hdecomp, hhd]
      simp
    exact hhead _ this

theorem trimRight_idem (l : List Char) : trimRight (trimRight l) = trimRight l := by
  unfold trimRight
  rw [List.reverse_reverse, dropWhile_idem]

theorem trim_idem (l : List Char) : trim (trim l) = trim l := by
  show trimRight (trimLeft (trim l)) = trim l
  rw [trimLeft_trim]
  show trimRight (trimRight (trimLeft l)) = trim l
  rw [trimRight_idem]
  rfl

theorem joinWith_append_singleton (sep : List Char) :
    ∀ (parts : List (List Char)) (l : List Char), parts ≠ [] →
      joinWith sep (parts ++ [l]) = joinWith sep parts ++ sep ++ l := by
  intro parts
  induction parts with
  | nil => intro l h; exact absurd rfl h
  | cons m ms ih =>
    intro l _
    cases ms with
    | nil => simp [joinWith]
    | cons m2 ms2 =>
      have h2 := ih l (by simp)
      simp only [List.cons_append] at h2 ⊢
      have e1 : joinWith sep (m :: m2 :: (ms2 ++ [l])) =
          m ++ sep ++ joinWith sep (m2 :: (ms2 ++ [l])) := rfl
      have e2 : joinWith sep (m :: m2 :: ms2) = m ++ sep ++ joinWith sep (m2 :: ms2) := rfl
      rw [e1, e2, h2]
      simp [List.append_assoc]

set_option maxRecDepth 10000 in
example :
    generate_summary [str ("hi")] [] =
      str ("=== Chat Summary ===\nTotal messages: 1\nUser messages: 1\nAI messages: 0\nTotal exchanges: 1\n\nSummary:\n- The conversation had 1 exchanges.\n- Unable to determine the nature of the conversation.\n- Most common keywords: .\n") := by
  decide

/-! ### Parser finalization discipline (claims C1, C10) -/

/-- Exhaustive description of how one loop iteration changes the two output
lists: a message is appended to `ai_messages` exactly on a `User:` line with
a pending non-empty AI message; to `user_messages` exactly on an `AI:` line
(not a `User:` line) with a pending non-empty user message; otherwise both
lists are untouched. -/
theorem process_line_cases (st : ParseState) (raw : List Char) :
    ((userTag.isPrefixOf (trim raw) = true ∧ st.current_speaker = some Speaker.ai
        ∧ st.current_message ≠ []) ∧
      (process_line st raw).user_messages = st.user_messages ∧
      (process_line st raw).ai_messages = st.ai_messages ++ [trim st.current_message])
    ∨ ((userTag.isPrefixOf (trim raw) = false ∧ aiTag.isPrefixOf (trim raw) = true
        ∧ st.current_speaker = some Speaker.user ∧ st.current_message ≠ []) ∧
      (process_line st raw).user_messages = st.user_messages ++ [trim st.current_message] ∧
      (process_line st raw).ai_messages = st.ai_messages)
    ∨ (¬(userTag.isPrefixOf (trim raw) = true ∧ st.current_speaker = some Speaker.ai
        ∧ st.current_message ≠ []) ∧
      ¬(userTag.isPrefixOf (trim raw) = false ∧ aiTag.isPrefixOf (trim raw) = true
        ∧ st.current_speaker = some Speaker.user ∧ st.current_message ≠ []) ∧
      (process_line st raw).user_messages = st.user_messages ∧
      (process_line st raw).ai_messages = st.ai_messages) := by
  by_cases hU : userTag.isPrefixOf (trim raw) = true
  · by_cases hF : st.current_speaker = some Speaker.ai ∧ st.current_message ≠ []
    · exact Or.inl ⟨⟨hU, hF.1, hF.2⟩, by simp [process_line, hU, hF], by simp [process_line, hU, hF]⟩
    · refine Or.inr (Or.inr ⟨fun h => hF ⟨h.2.1, h.2.2⟩, fun h => by simp [hU] at h, ?_, ?_⟩) <;>
        simp [process_line, hU, hF]
  · have hU2 : userTag.isPrefixOf (trim raw) = false := by
      revert hU; cases userTag.isPrefixOf (trim raw) <;> simp
    by_cases hA : aiTag.isPrefixOf (trim raw) = true
    · by_cases hF : st.current_speaker = some Speaker.user ∧ st.current_message ≠ []
      · exact Or.inr (Or.inl ⟨⟨hU2, hA, hF.1, hF.2⟩,
          by simp [process_line, hU, hA, hF], by simp [process_line, hU, hA, hF]⟩)
      · refine Or.inr (Or.inr ⟨fun h => hU (h.1), fun h => hF ⟨h.2.2.1, h.2.2.2⟩, ?_, ?_⟩) <;>
          simp [process_line, hU, hA, hF]
    · refine Or.inr (Or.inr ⟨fun h => hU (h.1), fun h => hA (h.2.1), ?_, ?_⟩) <;>
        by_cases hS : st.current_speaker.isSome <;> simp [process_line, hU, hA, hS]

/-- Exhaustive description of the end-of-input flush: the pending message is
appended to the current speaker's list exactly when a speaker is set and the
accumulator is non-empty. -/
theorem finalize_cases (st : ParseState) :
    (st.current_speaker = some Speaker.user ∧ st.current_message ≠ [] ∧
      finalize st = (st.user_messages ++ [trim st.current_message], st.ai_messages))
    ∨ (st.current_speaker = some Speaker.ai ∧ st.current_message ≠ [] ∧
      finalize st = (st.user_messages, st.ai_messages ++ [trim st.current_message]))
    ∨ (¬(st.current_speaker.isSome ∧ st.current_message ≠ []) ∧
      finalize st = (st.user_messages, st.ai_messages)) := by
  by_cases hM : st.current_message ≠ []
  · match hS : st.current_speaker with
    | none => exact Or.inr (Or.inr ⟨by simp [hS], by simp [finalize, hS]⟩)
    | some Speaker.user => exact Or.inl ⟨rfl, hM, by simp [finalize, hS, hM]⟩
    | some Speaker.ai => exact Or.inr (Or.inl ⟨rfl, hM, by simp [finalize, hS, hM]⟩)
  · exact Or.inr (Or.inr ⟨fun h => hM h.2, by simp [finalize, hM]⟩)

/-- Claim C1 (corrected), counterexample: on two consecutive `User:` lines
the pending non-empty message "hello" is neither kept in the accumulator nor
appended to any list — it is silently discarded, only "world" survives. -/
theorem parse_lines_same_speaker_loses_message :
    parse_lines [str ("User: hello"), str ("User: world")] = ([str ("world")], [])
    ∧ str ("hello") ∉ (parse_lines [str ("User: hello"), str ("User: world")]).1
    ∧ str ("hello") ∉ (parse_lines [str ("User: hello"), str ("User: world")]).2 := by
  refine ⟨by decide, by decide, by decide⟩

/-- Claim C1 (amended): during the scan, at most one message is finalized
per line; the output lists only ever grow (earlier messages are a prefix of
the later lists); a message is finalized at a line exactly when that line
carries the speaker tag opposite to the pending speaker and the accumulator
is non-empty — in particular a pending non-empty message is NOT finalized
(it is discarded) when the next tag line is for the same speaker; and at
end-of-input the pending message is finalized exactly when a speaker is set
and the accumulator is non-empty. -/
theorem parse_finalization_discipline (st : ParseState) (raw : List Char) :
    (st.user_messages <+: (process_line st raw).user_messages
      ∧ st.ai_messages <+: (process_line st raw).ai_messages)
    ∧ ((process_line st raw).user_messages.length + (process_line st raw).ai_messages.length ≤
        st.user_messages.length + st.ai_messages.length + 1)
    ∧ ((process_line st raw).user_messages.length + (process_line st raw).ai_messages.length =
        st.user_messages.length + st.ai_messages.length + 1 ↔
      (userTag.isPrefixOf (trim raw) = true ∧ st.current_speaker = some Speaker.ai
        ∧ st.current_message ≠ [])
      ∨ (userTag.isPrefixOf (trim raw) = false ∧ aiTag.isPrefixOf (trim raw) = true
        ∧ st.current_speaker = some Speaker.user ∧ st.current_message ≠ []))
    ∧ (st.user_messages <+: (finalize st).1 ∧ st.ai_messages <+: (finalize st).2)
    ∧ ((finalize st).1.length + (finalize st).2.length =
        st.user_messages.length + st.ai_messages.length +
          (if st.current_speaker.isSome ∧ st.current_message ≠ [] then 1 else 0)) := by
  have hp := process_line_cases st raw
  have hf := finalize_cases st
  refine ⟨?_, ?_, ?_, ?_, ?_⟩
  · rcases hp with ⟨_, h1, h2⟩ | ⟨_, h1, h2⟩ | ⟨_, _, h1, h2⟩ <;> rw [h1, h2]
    · exact ⟨List.prefix_rfl, List.prefix_append _ _⟩
    · exact ⟨List.prefix_append _ _, List.prefix_rfl⟩
    · exact ⟨List.prefix_rfl, List.prefix_rfl⟩
  · rcases hp with ⟨_, h1, h2⟩ | ⟨_, h1, h2⟩ | ⟨_, _, h1, h2⟩ <;> rw [h1, h2] <;>
      (try simp only [List.length_append, List.length_cons, List.length_nil]) <;> omega
  · constructor
    · intro hlen
      rcases hp with ⟨hc, _, _⟩ | ⟨hc, _, _⟩ | ⟨_, _, h1, h2⟩
      · exact Or.inl hc
      · exact Or.inr hc
      · rw [h1, h2] at hlen; omega
    · intro hc
      rcases hp with ⟨_, h1, h2⟩ | ⟨_, h1, h2⟩ | ⟨hn1, hn2, h1, h2⟩
      · rw [h1, h2]
        simp only [List.length_append, List.length_cons, List.length_nil]
        omega
      · rw [h1, h2]
        simp only [List.length_append, List.length_cons, List.length_nil]
        omega
      · rcases hc with hc | hc
        · exact absurd hc hn1
        · exact absurd hc hn2
  · rcases hf with ⟨_, _, h⟩ | ⟨_, _, h⟩ | ⟨_, h⟩ <;> rw [h]
    · exact ⟨List.prefix_append _ _, List.prefix_rfl⟩
    · exact ⟨List.prefix_rfl, List.prefix_append _ _⟩
    · exact ⟨List.prefix_rfl, List.prefix_rfl⟩
  · rcases hf with ⟨hs, hm, h⟩ | ⟨hs, hm, h⟩ | ⟨hn, h⟩
    · rw [h, if_pos ⟨by simp [hs], hm⟩]
      simp only [List.length_append, List.length_cons, List.length_nil]
      omega
    · rw [h, if_pos ⟨by simp [hs], hm⟩]
      simp only [List.length_append, List.length_cons, List.length_nil]
      omega
    · rw [h, if_neg hn]
      simp

/-- Claim C10 (confirmed): on the input `AI:`, blank line, `User: hi`, the
parser appends the empty string to the AI list — the returned lists may
contain empty messages. -/
theorem parse_lines_can_store_empty_message :
    parse_lines [str ("AI:"), str (""), str ("User: hi")] = ([str ("hi")], [[]])
    ∧ [] ∈ (parse_lines [str ("AI:"), str (""), str ("User: hi")]).2 :=
  ⟨by decide, by decide⟩

/-! ### The tokenizer (claim C2) -/

theorem isAlpha_isWordChar {c : Char} (h : c.isAlpha = true) : isWordChar c = true := by
  simp [isWordChar, h]

/-- With a word character behind it, the scanner can start no match until
the current word run ends: it behaves like the scan of the remainder after
the run. -/
theorem re_scan_true (s : List Char) :
    re_scan true s = re_scan false (s.dropWhile isWordChar) := by
  induction s with
  | nil => rfl
  | cons c cs ih =>
    by_cases hw : isWordChar c = true
    · rw [List.dropWhile_cons_of_pos hw]
      show re_scan (isWordChar c) cs = _
      rw [hw, ih]
    · have hwf : isWordChar c = false := by revert hw; cases isWordChar c <;> simp
      have ha : c.isAlpha = false := by
        revert hwf; unfold isWordChar; cases c.isAlpha <;> simp
      rw [List.dropWhile_cons_of_neg (by simp [hwf])]
      show re_scan (isWordChar c) cs = re_scan false (c :: cs)
      rw [hwf]
      conv_rhs => rw [re_scan]
      rw [if_neg (by simp [ha]), hwf]

/-- The head of `dropWhile Char.isAlpha` is not alphabetic. -/
theorem head_dropWhile_alpha {cs : List Char} {d : Char} {t : List Char}
    (hd : cs.dropWhile Char.isAlpha = d :: t) : d.isAlpha = false :=
  head_dropWhile_false Char.isAlpha cs d (by rw [hd]; rfl)

/-- When the first non-alphabetic character is not a word character (or the
string ends), the maximal word run and the maximal alphabetic run coincide. -/
theorem takeWhile_word_eq_alpha :
    ∀ cs : List Char, headNonWord (cs.dropWhile Char.isAlpha) = true →
      cs.takeWhile isWordChar = cs.takeWhile Char.isAlpha ∧
      cs.dropWhile isWordChar = cs.dropWhile Char.isAlpha := by
  intro cs
  induction cs with
  | nil => intro _; exact ⟨rfl, rfl⟩
  | cons c cs ih =>
    intro hb
    by_cases ha : c.isAlpha = true
    · rw [List.dropWhile_cons_of_pos ha] at hb
      have hw := isAlpha_isWordChar ha
      obtain ⟨h1, h2⟩ := ih hb
      rw [List.takeWhile_cons_of_pos hw, List.takeWhile_cons_of_pos ha,
        List.dropWhile_cons_of_pos hw, List.dropWhile_cons_of_pos ha, h1, h2]
      exact ⟨rfl, rfl⟩
    · rw [List.dropWhile_cons_of_neg ha] at hb
      have hb2 : (!isWordChar c) = true := hb
      have hw : isWordChar c = false := by simpa using hb2
      rw [List.takeWhile_cons_of_neg (by simp [hw]), List.takeWhile_cons_of_neg ha,
        List.dropWhile_cons_of_neg (by simp [hw]), List.dropWhile_cons_of_neg ha]
      exact ⟨rfl, rfl⟩

/-- When the character right after the maximal alphabetic run is a word
character (a digit or underscore), it lies inside the maximal word run. -/
theorem poison_mem :
    ∀ (cs : List Char) (d : Char) (t : List Char),
      cs.dropWhile Char.isAlpha = d :: t → isWordChar d = true →
      d ∈ cs.takeWhile isWordChar := by
  intro cs
  induction cs with
  | nil => intro d t hd _; simp at hd
  | cons c cs ih =>
    intro d t hd hw
    by_cases ha : c.isAlpha = true
    · rw [List.dropWhile_cons_of_pos ha] at hd
      rw [List.takeWhile_cons_of_pos (isAlpha_isWordChar ha)]
      exact List.mem_cons_of_mem _ (ih d t hd hw)
    · rw [List.dropWhile_cons_of_neg ha] at hd
      obtain ⟨rfl, rfl⟩ : c = d ∧ cs = t := by
        constructor <;> [exact (List.cons.injEq .. ▸ hd).1; exact (List.cons.injEq .. ▸ hd).2]
      rw [List.takeWhile_cons_of_pos hw]
      exact List.mem_cons_self _ _

/-- Members of `takeWhile p` satisfy `p`. -/
theorem mem_takeWhile_pred {p : Char → Bool} :
    ∀ {l : List Char} {a : Char}, a ∈ l.takeWhile p → p a = true := by
  intro l
  induction l with
  | nil => intro a ha; simp at ha
  | cons c cs ih =>
    intro a ha
    by_cases hc : p c = true
    · rw [List.takeWhile_cons_of_pos hc] at ha
      rcases List.mem_cons.mp ha with rfl | ha2
      · exact hc
      · exact ih ha2
    · rw [List.takeWhile_cons_of_neg hc] at ha
      simp at ha

/-- The scanner computes exactly the maximal word runs that consist of
letters only and have length at least 3. -/
theorem re_scan_eq_wordRuns_aux :
    ∀ (n : Nat) (s : List Char), s.length ≤ n →
      re_scan false s =
        (wordRuns s).filter (fun r => r.all Char.isAlpha && decide (3 ≤ r.length)) := by
  intro n
  induction n with
  | zero =>
    intro s hs
    have : s = [] := List.length_eq_zero.mp (Nat.le_zero.mp hs)
    subst this
    rw [wordRuns]
    rfl
  | succ n ih =>
    intro s hs
    match s with
    | [] =>
      rw [wordRuns]
      rfl
    | c :: cs =>
      have hcs : cs.length ≤ n := by simpa using hs
      have hdw : (cs.dropWhile isWordChar).length ≤ n :=
        le_trans ((List.dropWhile_sublist isWordChar).length_le) hcs
      have hda : (cs.dropWhile Char.isAlpha).length ≤ n :=
        le_trans ((List.dropWhile_sublist Char.isAlpha).length_le) hcs
      by_cases hw : isWordChar c = true
      · by_cases ha : c.isAlpha = true
        · -- a match attempt happens here
          cases hb : headNonWord (cs.dropWhile Char.isAlpha) with
          | true =>
            obtain ⟨htw, hdweq⟩ := takeWhile_word_eq_alpha cs hb
            have hrunalpha : (c :: cs.takeWhile Char.isAlpha).all Char.isAlpha = true := by
              rw [List.all_eq_true]
              intro x hx
              rcases List.mem_cons.mp hx with rfl | hx2
              · exact ha
              · exact mem_takeWhile_pred hx2
            rw [wordRuns, if_pos hw, htw, re_scan, if_pos (by simp [ha])]
            by_cases hlen : 3 ≤ (c :: cs.takeWhile Char.isAlpha).length
            · have hc1 : (decide (3 ≤ (c :: cs.takeWhile Char.isAlpha).length) &&
                  headNonWord (cs.dropWhile Char.isAlpha)) = true := by
                rw [decide_eq_true hlen, hb]
                simp
              have hc2 : ((c :: cs.takeWhile Char.isAlpha).all Char.isAlpha &&
                  decide (3 ≤ (c :: cs.takeWhile Char.isAlpha).length)) = true := by
                rw [hrunalpha, decide_eq_true hlen]
                simp
              have hfilt := @List.filter_cons_of_pos (List Char)
                (fun r => r.all Char.isAlpha && decide (3 ≤ r.length))
                (c :: cs.takeWhile Char.isAlpha)
                (wordRuns (cs.dropWhile isWordChar)) hc2
              rw [if_pos hc1, hfilt, re_scan_true, hdweq, ih _ hda]
            · have hc1 : ¬((decide (3 ≤ (c :: cs.takeWhile Char.isAlpha).length) &&
                  headNonWord (cs.dropWhile Char.isAlpha)) = true) := by
                rw [decide_eq_false hlen]
                simp
              have hc2 : ¬(((c :: cs.takeWhile Char.isAlpha).all Char.isAlpha &&
                  decide (3 ≤ (c :: cs.takeWhile Char.isAlpha).length)) = true) := by
                rw [decide_eq_false hlen]
                simp
              have hfilt := @List.filter_cons_of_neg (List Char)
                (fun r => r.all Char.isAlpha && decide (3 ≤ r.length))
                (c :: cs.takeWhile Char.isAlpha)
                (wordRuns (cs.dropWhile isWordChar)) hc2
              rw [if_neg hc1, hfilt, re_scan_true, hdweq, ih _ hda]
          | false =>
            match hd : cs.dropWhile Char.isAlpha with
            | [] => rw [hd] at hb; exact absurd hb (by simp [headNonWord])
            | d :: t =>
              rw [hd] at hb
              have hb2 : (!isWordChar d) = false := hb
              have hwd : isWordChar d = true := by simpa using hb2
              have hdal : d.isAlpha = false := head_dropWhile_alpha hd
              have hrun : (c :: cs.takeWhile isWordChar).all Char.isAlpha = false := by
                rw [Bool.eq_false_iff]
                intro hall
                have hx := (List.all_eq_true.mp hall) d
                  (List.mem_cons_of_mem _ (poison_mem cs d t hd hwd))
                simp [hdal] at hx
              have hc1 : ¬((decide (3 ≤ (c :: cs.takeWhile Char.isAlpha).length) &&
                  headNonWord (cs.dropWhile Char.isAlpha)) = true) := by
                rw [hd]
                have hnwf : headNonWord (d :: t) = false := by
                  show (!isWordChar d) = false
                  rw [hwd]
                  simp
                rw [hnwf]
                simp
              have hc2 : ¬(((c :: cs.takeWhile isWordChar).all Char.isAlpha &&
                  decide (3 ≤ (c :: cs.takeWhile isWordChar).length)) = true) := by
                rw [hrun]
                simp
              have hfilt := @List.filter_cons_of_neg (List Char)
                (fun r => r.all Char.isAlpha && decide (3 ≤ r.length))
                (c :: cs.takeWhile isWordChar)
                (wordRuns (cs.dropWhile isWordChar)) hc2
              rw [wordRuns, if_pos hw, re_scan, if_pos (by simp [ha]), if_neg hc1,
                hfilt, re_scan_true, ih _ hdw]
        · -- a word character that is not a letter: no match attempt
          have haf : c.isAlpha = false := by revert ha; cases c.isAlpha <;> simp
          have hrun : (c :: cs.takeWhile isWordChar).all Char.isAlpha = false := by
            rw [Bool.eq_false_iff]
            intro hall
            have hx := (List.all_eq_true.mp hall) c (List.mem_cons_self _ _)
            simp [haf] at hx
          have hc2 : ¬(((c :: cs.takeWhile isWordChar).all Char.isAlpha &&
              decide (3 ≤ (c :: cs.takeWhile isWordChar).length)) = true) := by
            rw [hrun]
            simp
          have hfilt := @List.filter_cons_of_neg (List Char)
            (fun r => r.all Char.isAlpha && decide (3 ≤ r.length))
            (c :: cs.takeWhile isWordChar)
            (wordRuns (cs.dropWhile isWordChar)) hc2
          rw [wordRuns, if_pos hw, re_scan, if_neg (by simp [haf]), hw,
            hfilt, re_scan_true, ih _ hdw]
      · -- not a word character at all
        have hwf : isWordChar c = false := by revert hw; cases isWordChar c <;> simp
        have ha : c.isAlpha = false := by
          revert hwf; unfold isWordChar; cases c.isAlpha <;> simp
        rw [wordRuns, if_neg (by simp [hwf]), re_scan, if_neg (by simp [ha]), hwf, ih _ hcs]

/-- The scan of `re.findall(r'\b[a-zA-Z]{3,}\b', s)` computes exactly the maximal word
runs of `s` that are all-alphabetic and of length at least 3. -/
theorem re_findall_eq_wordRuns (s : List Char) :
    re_findall s = (wordRuns s).filter (fun r => r.all Char.isAlpha && decide (3 ≤ r.length)) :=
  re_scan_eq_wordRuns_aux s.length s le_rfl

/-- Claim C2 (corrected), counterexample: on the message "abc123" the token
stream is empty — the claim predicts the token "abc", but the `\b` after the
maximal letter run falls between two word characters (`c` and `1`), so the
letter run adjacent to a digit is discarded entirely, not truncated. -/
theorem words_abc123_empty :
    words [str ("abc123")] = [] ∧ extract_keywords [str ("abc123")] 5 = [] :=
  ⟨by decide, by decide⟩

/-- Claim C2 (amended): the token stream of `extract_keywords` consists
exactly of the maximal runs of word characters (ASCII letters, digits,
underscore) of the lowercased space-joined text that consist entirely of
letters and have length at least 3; a letter run adjacent to a digit or
underscore is discarded entirely, and runs of fewer than 3 letters are
discarded. -/
theorem words_eq_filtered_wordRuns (messages : List (List Char)) :
    words messages =
      (wordRuns ((all_text messages).map Char.toLower)).filter
        (fun r => r.all Char.isAlpha && decide (3 ≤ r.length)) :=
  re_findall_eq_wordRuns _

/-! ### Exchange count (claim C5) -/

/-- Claim C5 (confirmed): the exchange count computed by `generate_summary`
is `min |user| |ai|`, plus one exactly when there are more user messages
than AI messages; in particular 3/3 ↦ 3, 4/3 ↦ 4, 2/5 ↦ 2. -/
theorem exchanges_count_spec :
    (∀ nUser nAi : Nat,
      exchanges_count nUser nAi = min nUser nAi + (if nAi < nUser then 1 else 0))
    ∧ exchanges_count 3 3 = 3 ∧ exchanges_count 4 3 = 4 ∧ exchanges_count 2 5 = 2 := by
  refine ⟨fun nUser nAi => ?_, by decide, by decide, by decide⟩
  unfold exchanges_count
  by_cases h : nAi < nUser
  · rw [if_pos h, if_pos h]
  · rw [if_neg h, if_neg h, Nat.add_zero]

/-! ### Error handling of the parser (claim C6) -/

/-- Claim C6 (confirmed): on a missing file, `parse_chat_log` prints exactly
one message, `Error: File '<path>' not found.`, and returns two empty lists;
on any other read error it prints exactly `Error reading file: <message>`
and returns two empty lists.  Both `except` handlers return normally — in
the embedding `parse_chat_log` is a total function, so no exception reaches
the caller. -/
theorem parse_chat_log_error_handling (file_path msg : List Char) :
    parse_chat_log file_path (Except.error ReadOutcome.fileNotFound) =
      ([str ("Error: File ") ++ [Char.ofNat 39] ++ file_path ++ [Char.ofNat 39] ++
        str (" not found.")], ([], []))
    ∧ parse_chat_log file_path (Except.error (ReadOutcome.ioError msg)) =
      ([str ("Error reading file: ") ++ msg], ([], []))
    ∧ ∀ lines, parse_chat_log file_path (Except.ok lines) = ([], parse_lines lines) :=
  ⟨rfl, rfl, fun _ => rfl⟩

/-! ### Output size of the keyword extractor (claim C7) -/

/-- Claim C7 (confirmed): `extract_keywords` returns at most
`max top_n 0` pairs — for `top_n ≤ 0` the list is empty (`Int.toNat` of a
non-positive number is `0`), and empty or entirely-filtered input gives an
empty list; being total, the function raises no error. -/
theorem extract_keywords_length_le (messages : List (List Char)) (top_n : Int) :
    (extract_keywords messages top_n).length ≤ (max top_n 0).toNat
    ∧ extract_keywords [] top_n = []
    ∧ extract_keywords [str ("the")] top_n = [] := by
  refine ⟨?_, ?_, ?_⟩
  · have h : (extract_keywords messages top_n).length ≤ top_n.toNat :=
      List.length_take_le _ _
    have h2 : top_n.toNat = (max top_n 0).toNat := by omega
    rw [← h2]
    exact h
  · show List.take top_n.toNat ([] : List (List Char × Nat)) = []
    exact List.take_nil
  · show List.take top_n.toNat ([] : List (List Char × Nat)) = []
    exact List.take_nil

/-! ### Ordering of the keyword ranking (claims C3, C8)

`Counter` iterates its keys in insertion order — the order of first
occurrence in `filtered_words` — and the stable descending sort of
`most_common` keeps that order among equal counts.  The lemmas below prove
the insertion sort `sortDesc` sorted and stable, and `counterKeys` ordered
by first occurrence. -/

theorem mem_insertDesc {z x : List Char × Nat} :
    ∀ {l : List (List Char × Nat)}, z ∈ insertDesc x l ↔ z = x ∨ z ∈ l := by
  intro l
  induction l with
  | nil => simp [insertDesc]
  | cons y ys ih =>
    by_cases h : x.2 ≤ y.2
    · rw [insertDesc, if_pos h]
      simp only [List.mem_cons, ih]
      tauto
    · rw [insertDesc, if_neg h]
      simp only [List.mem_cons]
      try tauto

theorem mem_sortDesc_aux {z : List Char × Nat} :
    ∀ (L acc : List (List Char × Nat)),
      z ∈ L.foldl (fun a x => insertDesc x a) acc ↔ z ∈ acc ∨ z ∈ L := by
  intro L
  induction L with
  | nil => intro acc; simp
  | cons x L ih =>
    intro acc
    rw [List.foldl_cons, ih]
    simp only [mem_insertDesc, List.mem_cons]
    tauto

theorem mem_sortDesc {z : List Char × Nat} {l : List (List Char × Nat)} :
    z ∈ sortDesc l ↔ z ∈ l := by
  unfold sortDesc
  rw [mem_sortDesc_aux]
  simp

theorem pairwise_insertDesc (g : List Char × Nat → Nat) (x : List Char × Nat) :
    ∀ (l : List (List Char × Nat)), l.Pairwise (ROrd g) → (∀ y ∈ l, g y < g x) →
      (insertDesc x l).Pairwise (ROrd g) := by
  intro l
  induction l with
  | nil => intro _ _; simp [insertDesc, List.pairwise_cons]
  | cons y ys ih =>
    intro hl hall
    obtain ⟨hy, hys⟩ := List.pairwise_cons.mp hl
    by_cases hc : x.2 ≤ y.2
    · rw [insertDesc, if_pos hc]
      refine List.pairwise_cons.mpr ⟨?_, ih hys (fun z hz => hall z (List.mem_cons_of_mem _ hz))⟩
      intro z hz
      rcases mem_insertDesc.mp hz with rfl | hz2
      · rcases Nat.lt_or_ge z.2 y.2 with hlt | hge
        · exact Or.inl hlt
        · have : z.2 = y.2 := Nat.le_antisymm hc hge
          exact Or.inr ⟨this.symm, hall y (List.mem_cons_self _ _)⟩
      · exact hy z hz2
    · rw [insertDesc, if_neg hc]
      refine List.pairwise_cons.mpr ⟨?_, hl⟩
      intro z hz
      rcases List.mem_cons.mp hz with rfl | hz2
      · exact Or.inl (Nat.lt_of_not_le hc)
      · rcases hy z hz2 with h | ⟨h, _⟩
        · exact Or.inl (Nat.lt_trans h (Nat.lt_of_not_le hc))
        · exact Or.inl (h ▸ Nat.lt_of_not_le hc)

theorem pairwise_sortDesc_aux (g : List Char × Nat → Nat) :
    ∀ (L acc : List (List Char × Nat)),
      L.Pairwise (fun a b => g a < g b) → acc.Pairwise (ROrd g) →
      (∀ y ∈ acc, ∀ x ∈ L, g y < g x) →
      (L.foldl (fun a x => insertDesc x a) acc).Pairwise (ROrd g) := by
  intro L
  induction L with
  | nil => intro acc _ hacc _; exact hacc
  | cons x L ih =>
    intro acc hL hacc hcross
    obtain ⟨hx, hL2⟩ := List.pairwise_cons.mp hL
    rw [List.foldl_cons]
    refine ih (insertDesc x acc) hL2 ?_ ?_
    · exact pairwise_insertDesc g x acc hacc
        (fun y hy => hcross y hy x (List.mem_cons_self _ _))
    · intro y hy z hz
      rcases mem_insertDesc.mp hy with rfl | hy2
      · exact hx z hz
      · exact hcross y hy2 z (List.mem_cons_of_mem _ hz)

theorem pairwise_sortDesc (g : List Char × Nat → Nat) (l : List (List Char × Nat))
    (h : l.Pairwise (fun a b => g a < g b)) : (sortDesc l).Pairwise (ROrd g) :=
  pairwise_sortDesc_aux g l [] h (List.Pairwise.nil) (by intro y hy; simp at hy)

theorem firstIdx_append_left {w : List Char} :
    ∀ {l1 : List (List Char)} (l2 : List (List Char)), w ∈ l1 →
      firstIdx w (l1 ++ l2) = firstIdx w l1 := by
  intro l1
  induction l1 with
  | nil => intro l2 h; simp at h
  | cons x xs ih =>
    intro l2 h
    by_cases hx : x = w
    · simp [firstIdx, hx]
    · rcases List.mem_cons.mp h with rfl | h2
      · exact absurd rfl hx
      · rw [List.cons_append, firstIdx, if_neg hx, firstIdx, if_neg hx, ih l2 h2]

theorem firstIdx_lt_length {w : List Char} :
    ∀ {l : List (List Char)}, w ∈ l → firstIdx w l < l.length := by
  intro l
  induction l with
  | nil => intro h; simp at h
  | cons x xs ih =>
    intro h
    by_cases hx : x = w
    · simp [firstIdx, hx]
    · rcases List.mem_cons.mp h with rfl | h2
      · exact absurd rfl hx
      · rw [firstIdx, if_neg hx, List.length_cons]
        exact Nat.succ_lt_succ (ih h2)

theorem firstIdx_append_self {w : List Char} :
    ∀ {l1 : List (List Char)} (l2 : List (List Char)), w ∉ l1 →
      firstIdx w (l1 ++ w :: l2) = l1.length := by
  intro l1
  induction l1 with
  | nil => intro l2 _; simp [firstIdx]
  | cons x xs ih =>
    intro l2 h
    have hx : x ≠ w := fun he => h (he ▸ List.mem_cons_self _ _)
    rw [List.cons_append, firstIdx, if_neg hx, List.length_cons,
      ih l2 (fun hw => h (List.mem_cons_of_mem _ hw))]

theorem counterKeys_aux (L : List (List Char)) :
    ∀ (rest pre acc : List (List Char)), pre ++ rest = L →
      (∀ w, w ∈ acc ↔ w ∈ pre) →
      acc.Pairwise (fun u v => firstIdx u L < firstIdx v L) →
      (rest.foldl (fun a w => if w ∈ a then a else a ++ [w]) acc).Pairwise
        (fun u v => firstIdx u L < firstIdx v L) := by
  intro rest
  induction rest with
  | nil => intro pre acc _ _ hacc; exact hacc
  | cons r rest ih =>
    intro pre acc hL hmem hacc
    rw [List.foldl_cons]
    by_cases hr : r ∈ acc
    · rw [if_pos hr]
      refine ih (pre ++ [r]) acc (by rw [← hL]; simp) ?_ hacc
      intro w
      rw [hmem w]
      constructor
      · intro h; exact List.mem_append_left _ h
      · intro h
        rcases List.mem_append.mp h with h2 | h2
        · exact h2
        · have : w = r := by simpa using h2
          subst this
          exact (hmem w).mp hr
    · rw [if_neg hr]
      refine ih (pre ++ [r]) (acc ++ [r]) (by rw [← hL]; simp) ?_ ?_
      · intro w
        constructor
        · intro h
          rcases List.mem_append.mp h with h2 | h2
          · exact List.mem_append_left _ ((hmem w).mp h2)
          · exact List.mem_append_right _ h2
        · intro h
          rcases List.mem_append.mp h with h2 | h2
          · exact List.mem_append_left _ ((hmem w).mpr h2)
          · exact List.mem_append_right _ h2
      · rw [List.pairwise_append]
        refine ⟨hacc, List.pairwise_singleton _ _, ?_⟩
        intro u hu b hb
        have hb2 : b = r := by simpa using hb
        have hu2 : u ∈ pre := (hmem u).mp hu
        have hr2 : r ∉ pre := fun h => hr ((hmem r).mpr h)
        have h1 : firstIdx u L < pre.length := by
          rw [← hL, firstIdx_append_left (r :: rest) hu2]
          exact firstIdx_lt_length hu2
        have h2 : firstIdx r L = pre.length := by
          rw [← hL]
          exact firstIdx_append_self rest hr2
        rw [hb2, h2]
        exact h1

theorem counterKeys_pairwise (l : List (List Char)) :
    (counterKeys l).Pairwise (fun u v => firstIdx u l < firstIdx v l) :=
  counterKeys_aux l l [] [] rfl (by simp) List.Pairwise.nil

theorem counterKeys_subset_aux {z : List Char} :
    ∀ (L acc : List (List Char)),
      z ∈ L.foldl (fun a w => if w ∈ a then a else a ++ [w]) acc → z ∈ acc ∨ z ∈ L := by
  intro L
  induction L with
  | nil => intro acc h; exact Or.inl h
  | cons r L ih =>
    intro acc h
    rw [List.foldl_cons] at h
    by_cases hr : r ∈ acc
    · rw [if_pos hr] at h
      rcases ih acc h with h2 | h2
      · exact Or.inl h2
      · exact Or.inr (List.mem_cons_of_mem _ h2)
    · rw [if_neg hr] at h
      rcases ih (acc ++ [r]) h with h2 | h2
      · rcases List.mem_append.mp h2 with h3 | h3
        · exact Or.inl h3
        · have : z = r := by simpa using h3
          exact Or.inr (this ▸ List.mem_cons_self _ _)
      · exact Or.inr (List.mem_cons_of_mem _ h2)

theorem counterKeys_subset {z : List Char} {l : List (List Char)}
    (h : z ∈ counterKeys l) : z ∈ l := by
  rcases counterKeys_subset_aux l [] h with h2 | h2
  · simp at h2
  · exact h2

/-- Every token the scanner emits has length at least 3. -/
theorem re_scan_token_length :
    ∀ (s : List Char) (b : Bool) (t : List Char), t ∈ re_scan b s → 3 ≤ t.length := by
  intro s
  induction s with
  | nil => intro b t h; simp [re_scan] at h
  | cons c cs ih =>
    intro b t h
    rw [re_scan] at h
    by_cases h1 : (!b && c.isAlpha) = true
    · rw [if_pos h1] at h
      by_cases h2 : (decide (3 ≤ (c :: cs.takeWhile Char.isAlpha).length) &&
          headNonWord (cs.dropWhile Char.isAlpha)) = true
      · rw [if_pos h2] at h
        rcases List.mem_cons.mp h with rfl | h3
        · exact of_decide_eq_true ((Bool.and_eq_true _ _).mp h2).1
        · exact ih true t h3
      · rw [if_neg h2] at h
        exact ih true t h
    · rw [if_neg h1] at h
      exact ih _ t h

/-- Claim C3 (confirmed): the keyword list is ordered by non-increasing
count, and among pairs with equal counts the word whose first occurrence in
the filtered token stream is earlier comes first. -/
theorem extract_keywords_ordering (messages : List (List Char)) (top_n : Int) :
    (extract_keywords messages top_n).Pairwise (fun a b => b.2 ≤ a.2)
    ∧ (extract_keywords messages top_n).Pairwise
        (ROrd (fun p => firstIdx p.1 (filtered_words messages))) := by
  have hkeys := counterKeys_pairwise (filtered_words messages)
  have hcounter : (counter (filtered_words messages)).Pairwise
      (fun a b => firstIdx a.1 (filtered_words messages) <
        firstIdx b.1 (filtered_words messages)) := by
    unfold counter
    exact List.pairwise_map.mpr hkeys
  have hsort := pairwise_sortDesc (fun p => firstIdx p.1 (filtered_words messages)) _ hcounter
  have htake : (extract_keywords messages top_n).Pairwise
      (ROrd (fun p => firstIdx p.1 (filtered_words messages))) :=
    hsort.sublist (List.take_sublist _ _)
  refine ⟨?_, htake⟩
  refine htake.imp ?_
  intro a b hab
  rcases hab with h | ⟨h, _⟩
  · exact Nat.le_of_lt h
  · exact Nat.le_of_eq h.symm

/-- Claim C8 (confirmed): every pair returned by `extract_keywords` carries
a word outside the stop-word set of length at least 3. -/
theorem extract_keywords_no_stopwords (messages : List (List Char)) (top_n : Int)
    (p : List Char × Nat) (hp : p ∈ extract_keywords messages top_n) :
    p.1 ∉ stop_words ∧ 3 ≤ p.1.length := by
  unfold extract_keywords most_common at hp
  have h1 : p ∈ sortDesc (counter (filtered_words messages)) := List.mem_of_mem_take hp
  have h2 : p ∈ counter (filtered_words messages) := mem_sortDesc.mp h1
  unfold counter at h2
  obtain ⟨w, hw, heq⟩ := List.mem_map.mp h2
  have hwf : w ∈ filtered_words messages := counterKeys_subset hw
  unfold filtered_words at hwf
  obtain ⟨hwmem, hdec⟩ := List.mem_filter.mp hwf
  have hnstop : w ∉ stop_words := of_decide_eq_true hdec
  have hlen : 3 ≤ w.length :=
    re_scan_token_length ((all_text messages).map Char.toLower) false w hwmem
  rw [← heq]
  exact ⟨hnstop, hlen⟩

/-- Concrete witness for `extract_keywords_no_stopwords`: the pair
`("hello", 1)` is returned on the message "hello". -/
theorem extract_keywords_no_stopwords_witness :
    str ("hello") ∉ stop_words ∧ 3 ≤ (str ("hello")).length :=
  extract_keywords_no_stopwords [str ("hello")] 5 (str ("hello"), 1) (by decide)

/-! ### Report shape when no keywords survive (claim C9) -/

/-- Claim C9 (confirmed): when the combined messages yield no keywords (and
at least one message is present), the report has no standalone
`Most common keywords:` line before the Summary block, its nature line is
`- Unable to determine the nature of the conversation.`, and its final line
is `- Most common keywords: .` with the empty keyword list interpolated. -/
theorem generate_summary_empty_keywords (u a : List (List Char))
    (hk : extract_keywords (u ++ a) 5 = []) (_hm : 0 < u.length + a.length) :
    generate_summary u a =
      str ("=== Chat Summary ===\n") ++
      str ("Total messages: ") ++ natStr (u.length + a.length) ++ str ("\n") ++
      str ("User messages: ") ++ natStr u.length ++ str ("\n") ++
      str ("AI messages: ") ++ natStr a.length ++ str ("\n") ++
      str ("Total exchanges: ") ++ natStr (exchanges_count u.length a.length) ++ str ("\n") ++
      str ("\nSummary:\n") ++
      str ("- The conversation had ") ++ natStr (exchanges_count u.length a.length) ++
      str (" exchanges.\n") ++
      str ("- ") ++ str ("Unable to determine the nature of the conversation.") ++ str ("\n") ++
      str ("- Most common keywords: ") ++ str (".\n")
    ∧ determine_conversation_nature (extract_keywords (u ++ a) 5) =
        str ("Unable to determine the nature of the conversation.") := by
  constructor
  · simp [generate_summary, hk, determine_conversation_nature, joinWith, List.append_assoc]
  · rw [hk]
    rfl

/-- Concrete witness for `generate_summary_empty_keywords`: the single
message "hi" (shorter than 3 letters) yields no keywords. -/
theorem generate_summary_empty_keywords_witness :
    determine_conversation_nature (extract_keywords ([str ("hi")] ++ []) 5) =
      str ("Unable to determine the nature of the conversation.") :=
  (generate_summary_empty_keywords [str ("hi")] [] (by decide) (by decide)).2

/-! ### Stored messages are space-joins of their stripped lines (claim C4) -/

theorem ghost_match_step (st : ParseState) (g : GhostState) (raw : List Char)
    (h : GhostMatch st g) : GhostMatch (process_line st raw) (ghost_line g raw) := by
  obtain ⟨hsp, hmsg, hne, hu, ha, htu, hta, htc⟩ := h
  simp only [process_line, ghost_line]
  by_cases hU : userTag.isPrefixOf (trim raw) = true
  · rw [if_pos hU, if_pos hU]
    by_cases hC : g.speaker = some Speaker.ai ∧ joinWith [ ' ' ] g.current_parts ≠ []
    · have hC2 : st.current_speaker = some Speaker.ai ∧ st.current_message ≠ [] := by
        rw [hsp, hmsg]; exact hC
      rw [if_pos hC, if_pos hC2]
      refine ⟨rfl, rfl, by simp, hu, ?_, htu, ?_, ?_⟩
      · show st.ai_messages ++ [trim st.current_message] =
          (g.ai_parts ++ [g.current_parts]).map mkMsg
        rw [List.map_append, ← ha]
        simp [mkMsg, hmsg]
      · intro parts hparts s hs
        rcases List.mem_append.mp hparts with h2 | h2
        · exact hta parts h2 s hs
        · have he : parts = g.current_parts := by simpa using h2
          exact htc s (he ▸ hs)
      · intro s hs
        have he : s = trim ((trim raw).drop 5) := by simpa using hs
        rw [he]
        exact trim_idem _
    · have hC2 : ¬(st.current_speaker = some Speaker.ai ∧ st.current_message ≠ []) := by
        rw [hsp, hmsg]; exact hC
      rw [if_neg hC, if_neg hC2]
      refine ⟨rfl, rfl, by simp, hu, ha, htu, hta, ?_⟩
      intro s hs
      have he : s = trim ((trim raw).drop 5) := by simpa using hs
      rw [he]
      exact trim_idem _
  · rw [if_neg hU, if_neg hU]
    by_cases hA : aiTag.isPrefixOf (trim raw) = true
    · rw [if_pos hA, if_pos hA]
      by_cases hC : g.speaker = some Speaker.user ∧ joinWith [ ' ' ] g.current_parts ≠ []
      · have hC2 : st.current_speaker = some Speaker.user ∧ st.current_message ≠ [] := by
          rw [hsp, hmsg]; exact hC
        rw [if_pos hC, if_pos hC2]
        refine ⟨rfl, rfl, by simp, ?_, ha, ?_, hta, ?_⟩
        · show st.user_messages ++ [trim st.current_message] =
            (g.user_parts ++ [g.current_parts]).map mkMsg
          rw [List.map_append, ← hu]
          simp [mkMsg, hmsg]
        · intro parts hparts s hs
          rcases List.mem_append.mp hparts with h2 | h2
          · exact htu parts h2 s hs
          · have he : parts = g.current_parts := by simpa using h2
            exact htc s (he ▸ hs)
        · intro s hs
          have he : s = trim ((trim raw).drop 3) := by simpa using hs
          rw [he]
          exact trim_idem _
      · have hC2 : ¬(st.current_speaker = some Speaker.user ∧ st.current_message ≠ []) := by
          rw [hsp, hmsg]; exact hC
        rw [if_neg hC, if_neg hC2]
        refine ⟨rfl, rfl, by simp, hu, ha, htu, hta, ?_⟩
        intro s hs
        have he : s = trim ((trim raw).drop 3) := by simpa using hs
        rw [he]
        exact trim_idem _
    · rw [if_neg hA, if_neg hA]
      by_cases hS : g.speaker.isSome = true
      · have hS2 : st.current_speaker.isSome = true := by rw [hsp]; exact hS
        rw [if_pos hS, if_pos hS2]
        refine ⟨hsp, ?_, by simp, hu, ha, htu, hta, ?_⟩
        · show st.current_message ++ ' ' :: trim raw =
            joinWith [ ' ' ] (g.current_parts ++ [trim raw])
          rw [joinWith_append_singleton _ _ _ (hne hS), ← hmsg]
          simp [List.append_assoc]
        · intro s hs
          rcases List.mem_append.mp hs with h2 | h2
          · exact htc s h2
          · have he : s = trim raw := by simpa using h2
            rw [he]
            exact trim_idem _
      · have hS2 : ¬(st.current_speaker.isSome = true) := by rw [hsp]; exact hS
        rw [if_neg hS, if_neg hS2]
        exact ⟨hsp, hmsg, hne, hu, ha, htu, hta, htc⟩

theorem ghost_match_fold :
    ∀ (lines : List (List Char)) (st : ParseState) (g : GhostState),
      GhostMatch st g →
      GhostMatch (lines.foldl process_line st) (lines.foldl ghost_line g) := by
  intro lines
  induction lines with
  | nil => intro st g h; exact h
  | cons l ls ih =>
    intro st g h
    rw [List.foldl_cons, List.foldl_cons]
    exact ih _ _ (ghost_match_step st g l h)

theorem ghost_finalize_eq (st : ParseState) (g : GhostState) (h : GhostMatch st g) :
    (finalize st).1 = ((ghost_finalize g).1).map mkMsg
    ∧ (finalize st).2 = ((ghost_finalize g).2).map mkMsg
    ∧ (∀ parts ∈ (ghost_finalize g).1, ∀ s ∈ parts, trim s = s)
    ∧ (∀ parts ∈ (ghost_finalize g).2, ∀ s ∈ parts, trim s = s) := by
  obtain ⟨hsp, hmsg, hne, hu, ha, htu, hta, htc⟩ := h
  unfold finalize ghost_finalize
  by_cases hC : g.speaker = some Speaker.user ∧ joinWith [ ' ' ] g.current_parts ≠ []
  · have hC2 : st.current_speaker = some Speaker.user ∧ st.current_message ≠ [] := by
      rw [hsp, hmsg]; exact hC
    rw [if_pos hC, if_pos hC2]
    refine ⟨?_, ha, ?_, hta⟩
    · show st.user_messages ++ [trim st.current_message] =
        (g.user_parts ++ [g.current_parts]).map mkMsg
      rw [List.map_append, ← hu]
      simp [mkMsg, hmsg]
    · intro parts hparts s hs
      rcases List.mem_append.mp hparts with h2 | h2
      · exact htu parts h2 s hs
      · have he : parts = g.current_parts := by simpa using h2
        exact htc s (he ▸ hs)
  · have hC2 : ¬(st.current_speaker = some Speaker.user ∧ st.current_message ≠ []) := by
      rw [hsp, hmsg]; exact hC
    rw [if_neg hC, if_neg hC2]
    by_cases hD : g.speaker = some Speaker.ai ∧ joinWith [ ' ' ] g.current_parts ≠ []
    · have hD2 : st.current_speaker = some Speaker.ai ∧ st.current_message ≠ [] := by
        rw [hsp, hmsg]; exact hD
      rw [if_pos hD, if_pos hD2]
      refine ⟨hu, ?_, htu, ?_⟩
      · show st.ai_messages ++ [trim st.current_message] =
          (g.ai_parts ++ [g.current_parts]).map mkMsg
        rw [List.map_append, ← ha]
        simp [mkMsg, hmsg]
      · intro parts hparts s hs
        rcases List.mem_append.mp hparts with h2 | h2
        · exact hta parts h2 s hs
        · have he : parts = g.current_parts := by simpa using h2
          exact htc s (he ▸ hs)
    · have hD2 : ¬(st.current_speaker = some Speaker.ai ∧ st.current_message ≠ []) := by
        rw [hsp, hmsg]; exact hD
      rw [if_neg hD, if_neg hD2]
      exact ⟨hu, ha, htu, hta⟩

/-- Claim C4 (confirmed): every stored message is the single-space join of
its stripped constituent line fragments (the instrumented scan `ghost_parse`
collects exactly those fragments: the seed after the speaker tag and each
stripped continuation line, a blank continuation line contributing an empty
fragment), followed by a final strip; consequently no stored message has
leading or trailing whitespace. -/
theorem parse_lines_messages_joined (lines : List (List Char)) :
    (parse_lines lines).1 = ((ghost_parse lines).1).map mkMsg
    ∧ (parse_lines lines).2 = ((ghost_parse lines).2).map mkMsg
    ∧ (∀ parts ∈ (ghost_parse lines).1, ∀ s ∈ parts, trim s = s)
    ∧ (∀ parts ∈ (ghost_parse lines).2, ∀ s ∈ parts, trim s = s)
    ∧ (∀ m ∈ (parse_lines lines).1, trim m = m)
    ∧ (∀ m ∈ (parse_lines lines).2, trim m = m) := by
  have hinit : GhostMatch initState ⟨none, [], [], []⟩ :=
    ⟨rfl, rfl, by simp, rfl, rfl, by simp, by simp, by simp⟩
  have hmatch := ghost_match_fold lines initState ⟨none, [], [], []⟩ hinit
  obtain ⟨h1, h2, h3, h4⟩ := ghost_finalize_eq _ _ hmatch
  refine ⟨h1, h2, h3, h4, ?_, ?_⟩
  · intro m hm
    unfold parse_lines at hm
    rw [h1] at hm
    obtain ⟨parts, _, heq⟩ := List.mem_map.mp hm
    rw [← heq]
    show trim (trim (joinWith [ ' ' ] parts)) = trim (joinWith [ ' ' ] parts)
    exact trim_idem _
  · intro m hm
    unfold parse_lines at hm
    rw [h2] at hm
    obtain ⟨parts, _, heq⟩ := List.mem_map.mp hm
    rw [← heq]
    show trim (trim (joinWith [ ' ' ] parts)) = trim (joinWith [ ' ' ] parts)
    exact trim_idem _

set_option maxRecDepth 10000 in
example :
    generate_summary [str ("rust programming rust")] [] =
      str ("=== Chat Summary ===\nTotal messages: 1\nUser messages: 1\nAI messages: 0\nTotal exchanges: 1\n\nMost common keywords: rust, programming\n\nSummary:\n- The conversation had 1 exchanges.\n- The conversation was mainly about rust, programming.\n- Most common keywords: rust, programming.\n") := by
  decide

end ChatSummarizer
